import Mathlib

/-
Verification of the cross-source event-reconciliation logic of the
earnings/insider/congress Discord bots (ceo_bot.py, congress_bot.py,
earnings_bot.py).

Modelling conventions of this shallow embedding:
* Python strings are modelled as `List Char` (`PyStr`); `str.strip`, `str.lower`,
  `str.upper`, `str.split` are modelled character-wise over ASCII, matching the
  data that actually flows through these functions.
* Python dict-shaped records are modelled as structures; `dict.get(k, "")` is a
  plain field (missing key and empty string are indistinguishable downstream).
* Network calls are replaced by explicit response arguments: each function that
  issues a query takes the text of the response it would have received, so that
  the pure post-response computation of the source is embedded exactly.
* `json.loads` (a standard-library call) is an abstract decoding parameter
  `decode : PyStr → Option Trade`; the repository's own line filtering and
  error-tolerant loop around it are embedded concretely.
* File persistence is modelled by passing the persisted JSON array (a list of
  keys) in and out; `set(...)` is `List.dedup` (membership-equivalent).
-/

abbrev PyStr := List Char

/-- Characters stripped by Python's `str.strip()` with no arguments
(ASCII whitespace; the source never feeds non-ASCII whitespace through it). -/
def pyIsSpace (c : Char) : Bool :=
  c == ' ' || c == '\t' || c == '\n' || c == '\r' || c == '\x0b' || c == '\x0c'

/-- Model of Python `str.lower` on one character (ASCII range, as exercised by
the source's ticker/name data). -/
def pyToLower (c : Char) : Char :=
  if 'A' ≤ c ∧ c ≤ 'Z' then Char.ofNat (c.toNat + 32) else c

/-- Model of Python `str.upper` on one character (ASCII range). -/
def pyToUpper (c : Char) : Char :=
  if 'a' ≤ c ∧ c ≤ 'z' then Char.ofNat (c.toNat - 32) else c

/-- Python `str.lower`. -/
def pyLower (s : PyStr) : PyStr := s.map pyToLower

/-- Python `str.upper`. -/
def pyUpper (s : PyStr) : PyStr := s.map pyToUpper

/-- Python `str.lstrip()`. -/
def pyStripLeft (s : PyStr) : PyStr := s.dropWhile pyIsSpace

/-- Python `str.rstrip()`. -/
def pyStripRight (s : PyStr) : PyStr := (s.reverse.dropWhile pyIsSpace).reverse

/-- Python `str.strip()`. -/
def pyStrip (s : PyStr) : PyStr := pyStripRight (pyStripLeft s)

/-- Whether `pat` occurs at the start of the second argument. -/
def startsWithChars : PyStr → PyStr → Bool
  | [], _ => true
  | _ :: _, [] => false
  | p :: ps, c :: cs => p == c && startsWithChars ps cs

/-- Python's `pat in s` substring test. -/
def hasSubstr (pat : PyStr) : PyStr → Bool
  | [] => startsWithChars pat []
  | c :: cs => startsWithChars pat (c :: cs) || hasSubstr pat cs

/-- Python `content.split("\n")`. -/
def splitNl (content : PyStr) : List PyStr := content.splitOn '\n'

/-- Model of `re.sub(r'\[\d+\]', '', text)` in `strip_citations`: removes every
non-overlapping leftmost occurrence of a bracketed digit run.  Structural
recursion over a fuel counter so the function computes by reduction; every step
consumes at least one character, so fuel equal to the input length (as supplied
by `removeCitations`) never runs out. -/
def removeCitationsAux : Nat → PyStr → PyStr
  | 0, s => s
  | _ + 1, [] => []
  | fuel + 1, '[' :: rest =>
    match rest.dropWhile Char.isDigit with
    | ']' :: tail2 =>
      if (rest.takeWhile Char.isDigit).length ≠ 0 then removeCitationsAux fuel tail2
      else '[' :: removeCitationsAux fuel rest
    | _ => '[' :: removeCitationsAux fuel rest
  | fuel + 1, c :: rest => c :: removeCitationsAux fuel rest

/-- The regex-removal pass of `strip_citations`. -/
def removeCitations (s : PyStr) : PyStr := removeCitationsAux s.length s

/-- Function `strip_citations` from the source: regex removal then `.strip()`. -/
def strip_citations (text : PyStr) : PyStr := pyStrip (removeCitations text)

/-- A trade record as produced by `json.loads` on one line of the text source's
response, fields read with `trade.get(k, "")` (ceo_bot.py). -/
structure Trade where
  executive : PyStr
  ticker : PyStr
  title : PyStr
  company : PyStr
  value : PyStr
  shares : PyStr
  trade_date : PyStr
deriving DecidableEq

/-- Function `get_trade_key` from ceo_bot.py: `f"{executive}|{ticker}|{trade_date}|{value}"`
with `executive.lower().strip()`, `ticker.upper().strip()`, the date and value
stripped.  (congress_bot.py defines the same function with `politician`/`amount`
in place of `executive`/`value`.) -/
def get_trade_key (trade : Trade) : PyStr :=
  pyStrip (pyLower trade.executive) ++ '|' :: pyStrip (pyUpper trade.ticker)
    ++ '|' :: pyStrip trade.trade_date ++ '|' :: pyStrip trade.value

/-- A Discord embed, reduced to its payload (formatting is out of scope). -/
inductive Embed where
  | summary (numTrades totalExecutives : Nat)
  | trade (ticker executive title company value shares tradeDate : PyStr)
deriving DecidableEq

/-- Function `create_trade_embed` from ceo_bot.py, keeping the payload fields. -/
def create_trade_embed (trade : Trade) : Embed :=
  .trade trade.ticker trade.executive trade.title trade.company trade.value
    trade.shares trade.trade_date

/-- Function `create_summary_embed` from ceo_bot.py, keeping the payload fields. -/
def create_summary_embed (numTrades totalExecutives : Nat) : Embed :=
  .summary numTrades totalExecutives

/-- Function `load_posted_trades`: `set(json.load(f))` of the persisted array.  The set is
modelled as a duplicate-free list. -/
def load_posted_trades (file : List PyStr) : List PyStr := file.dedup

/-- Function `save_posted_trades`: persists `sorted(posted)[-500:]`, i.e. the sorted key
set truncated to its last (lexicographically greatest) 500 entries. -/
def save_posted_trades (posted : List PyStr) : List PyStr :=
  (List.insertionSort (· ≤ ·) posted).drop (posted.length - 500)

/-- The classification loop of `process_insider_purchases`: walks the fetched
trades, appends a trade to `new_trades` iff its key is not in `posted`, adding
the key to `posted` as soon as a new trade is seen (so in-batch duplicates are
caught).  Returns (new_trades, final posted set). -/
def filterNewTrades : List Trade → List PyStr → List Trade × List PyStr
  | [], posted => ([], posted)
  | t :: ts, posted =>
    if get_trade_key t ∈ posted then filterNewTrades ts posted
    else
      let r := filterNewTrades ts (get_trade_key t :: posted)
      (t :: r.1, r.2)

/-- Result of one run: the embeds handed to the notification step and the
content of the persisted store file after the run. -/
structure RunOut where
  embeds : List Embed
  file : List PyStr
deriving DecidableEq

/-- Function `process_insider_purchases` from ceo_bot.py, given the trades returned by the
text source (`fetch_insider_trades`) and the persisted store file: filters
already-posted trades, saves the updated key set (only when there are new
trades), and builds the embeds (a summary when more than one new trade, then an
individual embed for at most the first 9 new trades). -/
def process_insider_purchases (trades : List Trade) (file : List PyStr) : RunOut :=
  if trades = [] then ⟨[], file⟩
  else
    let posted := load_posted_trades file
    let r := filterNewTrades trades posted
    if r.1 = [] then ⟨[], file⟩
    else
      ⟨(if 1 < r.1.length then
          [create_summary_embed r.1.length (r.1.map Trade.executive).dedup.length]
        else [])
          ++ (r.1.take 9).map create_trade_embed,
        save_posted_trades r.2⟩

/-- Function `process_insider_purchases` with the possibility that the `save_posted_trades`
call raises (its `open`/`json.dump` is not wrapped in try/except in the source,
so an IOError propagates out of the function): `saveOk = false` models the
raising save.  The exception escapes before any embed is built. -/
def process_insider_purchasesE (trades : List Trade) (file : List PyStr)
    (saveOk : Bool) : Except Unit RunOut :=
  if trades = [] then .ok ⟨[], file⟩
  else
    let posted := load_posted_trades file
    let r := filterNewTrades trades posted
    if r.1 = [] then .ok ⟨[], file⟩
    else if saveOk then
      .ok ⟨(if 1 < r.1.length then
          [create_summary_embed r.1.length (r.1.map Trade.executive).dedup.length]
        else [])
          ++ (r.1.take 9).map create_trade_embed,
        save_posted_trades r.2⟩
    else .error ()

/-- One iteration of the line loop in `fetch_insider_trades` (ceo_bot.py) and
`fetch_congress_trades_perplexity` (congress_bot.py): strip the line, keep it
only if it starts with `{` and ends with `}` and `json.loads` (the abstract
`decode`) succeeds; a decode failure just drops the line. -/
def json_line_step (decode : PyStr → Option Trade) (line0 : PyStr) : Option Trade :=
  let line := pyStrip line0
  if line.head? = some '{' ∧ line.getLast? = some '}' then decode line else none

/-- The line loop of the Line-JSON extractor over the split content. -/
def parse_trade_lines (decode : PyStr → Option Trade) (lines : List PyStr) : List Trade :=
  lines.filterMap (json_line_step decode)

/-- The extraction part of `fetch_insider_trades`: after citation stripping, if
the sentinel `NO_TRADES` occurs in the uppercased content, return no trades;
otherwise run the tolerant line loop.  `content` is the response body after
`strip_citations` (as in the source). -/
def fetch_insider_trades_extract (decode : PyStr → Option Trade) (content : PyStr) :
    List Trade :=
  if hasSubstr ("NO_TRADES".toList) (pyUpper content) then []
  else parse_trade_lines decode (splitNl content)

/-- Gregorian leap year, as validated by `datetime`. -/
def isLeapYear (y : Nat) : Bool := (y % 4 == 0 && y % 100 != 0) || y % 400 == 0

/-- Days in a month, as validated by `datetime.strptime`. -/
def daysInMonth (y m : Nat) : Nat :=
  if m = 2 then (if isLeapYear y then 29 else 28)
  else if m = 4 ∨ m = 6 ∨ m = 9 ∨ m = 11 then 30 else 31

/-- A parsed `YYYY-MM-DD` date. -/
structure Ymd where
  year : Nat
  month : Nat
  day : Nat
deriving DecidableEq

/-- Decimal value of a digit string. -/
def digitsToNat (ds : PyStr) : Nat :=
  ds.foldl (fun n c => n * 10 + (c.toNat - '0'.toNat)) 0

/-- Model of `datetime.strptime(s, "%Y-%m-%d")`: exactly four year digits, one or
two month and day digits (CPython's `%m`/`%d` accept both), nothing left over,
and a calendar-valid month/day (`datetime` rejects out-of-range values). -/
def parseYmd (s : PyStr) : Option Ymd :=
  let ys := s.takeWhile Char.isDigit
  match s.dropWhile Char.isDigit with
  | '-' :: r2 =>
    let ms := r2.takeWhile Char.isDigit
    match r2.dropWhile Char.isDigit with
    | '-' :: r4 =>
      let ds := r4.takeWhile Char.isDigit
      if r4.dropWhile Char.isDigit = [] ∧ ys.length = 4
          ∧ (ms.length = 1 ∨ ms.length = 2) ∧ (ds.length = 1 ∨ ds.length = 2) then
        let y := digitsToNat ys
        let m := digitsToNat ms
        let d := digitsToNat ds
        if 1 ≤ y ∧ 1 ≤ m ∧ m ≤ 12 ∧ 1 ≤ d ∧ d ≤ daysInMonth y m then some ⟨y, m, d⟩
        else none
      else none
    | _ => none
  | _ => none

/-- Day number of a civil date (standard days-from-civil algorithm, shifted by a
constant; only differences of values are ever used, exactly as the source only
uses `(target - returned).days`). -/
def rataDie (y m d : Nat) : Nat :=
  let y' := if m ≤ 2 then y - 1 else y
  let era := y' / 400
  let yoe := y' % 400
  let mp := if 2 < m then m - 3 else m + 9
  let doy := (153 * mp + 2) / 5 + d - 1
  let doe := yoe * 365 + yoe / 4 - yoe / 100 + doy
  era * 146097 + doe

/-- The quantity `(target - returned).days` of the source: difference in days of two parsed
dates. -/
def daysDiff (target returned : Ymd) : Int :=
  (rataDie target.year target.month target.day : Int) -
    (rataDie returned.year returned.month returned.day : Int)

/-- Match of `\d{4}-\d{2}-\d{2}` at the head of the string. -/
def matchYmdAt (s : PyStr) : Option PyStr :=
  match s with
  | a :: b :: c :: d :: '-' :: e :: f :: '-' :: g :: h :: _ =>
    if a.isDigit && b.isDigit && c.isDigit && d.isDigit && e.isDigit && f.isDigit
        && g.isDigit && h.isDigit then
      some [a, b, c, d, '-', e, f, '-', g, h]
    else none
  | _ => none

/-- Model of `re.search(r'(\d{4}-\d{2}-\d{2})', s)`: the leftmost match. -/
def searchYmd : PyStr → Option PyStr
  | [] => none
  | c :: cs =>
    match matchYmdAt (c :: cs) with
    | some m => some m
    | none => searchYmd cs

/-- Outcome of `verify_earnings_date_perplexity`: the returned boolean, plus
whether the second (backup YES/NO) query was issued. -/
structure VerifyOut where
  verified : Bool
  backupCalled : Bool
deriving DecidableEq

/-- Function `verify_earnings_date_perplexity` from earnings_bot.py, with the two network
responses passed in (`firstAnswer` is the response to the most-recent-date
query, `backupAnswer` the response to the backup YES/NO query, used only when
that query is actually issued).  Mirrors the source: extract a date from the
first answer; exact string match confirms immediately; otherwise parse both
dates (a `ValueError` falls through to rejection), and only a 30..120-day gap
triggers the backup query, accepted iff the processed answer contains `YES`. -/
def verify_earnings_date_perplexity (date firstAnswer backupAnswer : PyStr) : VerifyOut :=
  let answer := strip_citations (pyStrip firstAnswer)
  match searchYmd answer with
  | none => ⟨false, false⟩
  | some reported_date =>
    if reported_date = date then ⟨true, false⟩
    else
      match parseYmd date, parseYmd reported_date with
      | some target, some returned =>
        if 30 ≤ daysDiff target returned ∧ daysDiff target returned ≤ 120 then
          let backup := strip_citations (pyUpper (pyStrip backupAnswer))
          if hasSubstr ("YES".toList) backup then ⟨true, true⟩ else ⟨false, true⟩
        else ⟨false, false⟩
      | _, _ => ⟨false, false⟩

/-- Characters matched by the class `[\d.]`. -/
def isNumChar (c : Char) : Bool := c.isDigit || c == '.'

/-- Model of `re.search(r'[-]?[\d.]+', s)`: leftmost, greedy. -/
def searchNumToken : PyStr → Option PyStr
  | [] => none
  | c :: cs =>
    if isNumChar c then some (c :: cs.takeWhile isNumChar)
    else if c == '-' && (match cs with | d :: _ => isNumChar d | [] => false) then
      some ('-' :: cs.takeWhile isNumChar)
    else searchNumToken cs

/-- Model of `re.search(r'[\d.]+', s)`: leftmost, greedy, no sign. -/
def searchDigitsToken : PyStr → Option PyStr
  | [] => none
  | c :: cs =>
    if isNumChar c then some (c :: cs.takeWhile isNumChar)
    else searchDigitsToken cs

/-- Whether `float(token)` succeeds on a token drawn from `[-]?[\d.]+`: at least
one digit and at most one dot (e.g. `float("1.2.3")` and `float(".")` raise
`ValueError`, which the source's `except` turns into skipping the line). -/
def validFloatToken (t : PyStr) : Bool :=
  match t with
  | '-' :: rest => rest.any Char.isDigit && decide (rest.countP (fun c => c == '.') ≤ 1)
  | _ => t.any Char.isDigit && decide (t.countP (fun c => c == '.') ≤ 1)

/-- Python `line.split(":")[-1]`. -/
def lastColonSegment (line : PyStr) : PyStr := (line.splitOn ':').getLastD []

/-- The numeric fields extracted by `fetch_earnings_data_perplexity`.  A value is
kept as its matched numeric token (the source stores `float(token)`; only
presence and the token itself matter to the claims). -/
structure EarnNums where
  epsActual : Option PyStr
  epsEstimated : Option PyStr
  revenueActual : Option PyStr
  revenueEstimated : Option PyStr
deriving DecidableEq

/-- One iteration of the key-value parsing loop of
`fetch_earnings_data_perplexity`: label matched case-insensitively as a
substring, first numeric token of the last colon segment taken as the value
(commas stripped first for the revenue lines), line skipped if `float` fails. -/
def parseEarnLine (st : EarnNums) (line0 : PyStr) : EarnNums :=
  let line := pyStrip line0
  let u := pyUpper line
  if hasSubstr ("EPS_ACTUAL".toList) u then
    match searchNumToken (lastColonSegment line) with
    | some tok => if validFloatToken tok then { st with epsActual := some tok } else st
    | none => st
  else if hasSubstr ("EPS_ESTIMATED".toList) u then
    match searchNumToken (lastColonSegment line) with
    | some tok => if validFloatToken tok then { st with epsEstimated := some tok } else st
    | none => st
  else if hasSubstr ("REVENUE_ACTUAL".toList) u then
    match searchDigitsToken ((lastColonSegment line).filter (fun c => c != ',')) with
    | some tok => if validFloatToken tok then { st with revenueActual := some tok } else st
    | none => st
  else if hasSubstr ("REVENUE_ESTIMATED".toList) u then
    match searchDigitsToken ((lastColonSegment line).filter (fun c => c != ',')) with
    | some tok => if validFloatToken tok then { st with revenueEstimated := some tok } else st
    | none => st
  else st

/-- The parsing part of `fetch_earnings_data_perplexity`, applied to the response
content (stripped, citations removed, split on newlines, folded through the
key-value loop). -/
def fetch_earnings_data_perplexity (content : PyStr) : EarnNums :=
  (splitNl (strip_citations (pyStrip content))).foldl parseEarnLine ⟨none, none, none, none⟩

/-- An earnings-calendar record (FMP calendar entry or Perplexity-derived entry),
with the fields the merging logic reads. -/
structure EarnRec where
  symbol : PyStr
  date : PyStr
  epsActual : Option PyStr
  epsEstimated : Option PyStr
  revenueActual : Option PyStr
  revenueEstimated : Option PyStr
deriving DecidableEq

/-- The `missing_tickers` computation of `fetch_missing_earnings_perplexity`:
watched tickers whose uppercased symbol is not among the uppercased symbols of
the records already found by the structured source. -/
def missing_tickers (watched : List PyStr) (alreadyFound : List EarnRec) : List PyStr :=
  watched.filter (fun t => ¬ pyUpper t ∈ alreadyFound.map (fun e => pyUpper e.symbol))

/-- Function `fetch_missing_earnings_perplexity` from earnings_bot.py, with the per-ticker
network responses passed in as functions: for each missing ticker, if the date
verification succeeds, fetch the numeric data and keep the ticker only when an
actual-EPS value was extracted. -/
def fetch_missing_earnings_perplexity (watched : List PyStr) (date : PyStr)
    (alreadyFound : List EarnRec)
    (firstAnswerOf backupAnswerOf dataAnswerOf : PyStr → PyStr) : List EarnRec :=
  (missing_tickers watched alreadyFound).filterMap (fun ticker =>
    if (verify_earnings_date_perplexity date (firstAnswerOf ticker)
        (backupAnswerOf ticker)).verified then
      let d := fetch_earnings_data_perplexity (dataAnswerOf ticker)
      if d.epsActual.isSome then
        some ⟨ticker, date, d.epsActual, d.epsEstimated, d.revenueActual, d.revenueEstimated⟩
      else none
    else none)

/-- Function `filter_watched_earnings` from earnings_bot.py. -/
def filter_watched_earnings (watched : List PyStr) (calendar : List EarnRec) : List EarnRec :=
  calendar.filter (fun e => pyUpper e.symbol ∈ watched.map pyUpper)

/-- The record-merging part of `process_earnings`: the structured source's
filtered records extended with the verified text-derived records. -/
def process_earnings_merged (watched : List PyStr) (date : PyStr) (calendar : List EarnRec)
    (firstAnswerOf backupAnswerOf dataAnswerOf : PyStr → PyStr) : List EarnRec :=
  let watched_earnings := filter_watched_earnings watched calendar
  watched_earnings ++ fetch_missing_earnings_perplexity watched date watched_earnings
    firstAnswerOf backupAnswerOf dataAnswerOf

/-- Modelled from the spec: the backup prompt instructs "Answer ONLY YES or NO",
so an "explicit affirmative" backup response is, up to surrounding whitespace
and letter case, exactly the word YES.  Used only to compare the spec's
acceptance condition with the code's. -/
def explicitAffirmative (resp : PyStr) : Bool :=
  pyUpper (pyStrip resp) == "YES".toList

/-- Modelled from the spec: the numeric extraction "yields at least one concrete
anchor value (e.g., an actual EPS or actual value figure)".  Used only to
compare the spec's acceptance condition with the code's. -/
def yieldsConcreteAnchor (d : EarnNums) : Bool :=
  d.epsActual.isSome || d.revenueActual.isSome

/-- All characters of the string are whitespace. -/
def wsOnly (s : PyStr) : Prop := ∀ c ∈ s, pyIsSpace c = true

/-- The string is `core` surrounded by incidental (leading/trailing) whitespace. -/
def wsWrap (core s : PyStr) : Prop :=
  ∃ a b, wsOnly a ∧ wsOnly b ∧ s = a ++ core ++ b

/-- Two strings differing only in incidental whitespace. -/
def wsEquiv (s t : PyStr) : Prop := ∃ core, wsWrap core s ∧ wsWrap core t

/-- Two strings differing only in the letter case of their core and in
incidental whitespace: the cores agree after case folding (in either
direction). -/
def wsCaseEquiv (s t : PyStr) : Prop :=
  ∃ u v, pyLower u = pyLower v ∧ pyUpper u = pyUpper v ∧ wsWrap u s ∧ wsWrap v t

/-- A store of n distinct keys, each a nonempty run of one repeated character. -/
def repStore (ch : Char) (n : Nat) : List PyStr :=
  (List.range n).map (fun i => List.replicate (i + 1) ch)

/-- A full store of 500 keys, all lexicographically above every key whose first
character precedes 'z'. -/
def zStore : List PyStr := repStore 'z' 500

/-- A single concrete insider trade whose key starts with 'a'. -/
def annTrade : Trade :=
  ⟨"ann".toList, "T".toList, "CEO".toList, "X".toList, "$1".toList, "1".toList,
    "2026-01-01".toList⟩

/-- A concrete insider trade with a chosen ticker; its key starts with 'b'. -/
def bobTrade (tk : PyStr) : Trade :=
  ⟨"bob".toList, tk, "CEO".toList, "X".toList, "$1".toList, "1".toList,
    "2026-01-01".toList⟩

/-- Ten concrete trades with pairwise-distinct tickers (hence distinct keys). -/
def bobTrades : List Trade :=
  [bobTrade ("A".toList), bobTrade ("B".toList), bobTrade ("C".toList),
    bobTrade ("D".toList), bobTrade ("E".toList), bobTrade ("F".toList),
    bobTrade ("G".toList), bobTrade ("H".toList), bobTrade ("I".toList),
    bobTrade ("J".toList)]

/-- A concrete well-formed JSON-object-shaped line. -/
def okLine : PyStr := '{' :: "ok".toList ++ ['}']

/-- A concrete decoder standing for `json.loads`: succeeds exactly on `okLine`. -/
def okDecode (l : PyStr) : Option Trade :=
  if l = okLine then some annTrade else none

/-- Two structured-source calendar records sharing one symbol. -/
def aaplRec1 : EarnRec := ⟨"AAPL".toList, "2026-02-03".toList, none, none, none, none⟩

def aaplRec2 : EarnRec := ⟨"AAPL".toList, "2026-02-04".toList, none, none, none, none⟩

theorem dropWhile_append_of_forall {p : Char → Bool} {a l : PyStr}
    (h : ∀ x ∈ a, p x = true) : (a ++ l).dropWhile p = l.dropWhile p := by
  induction a with
  | nil => rfl
  | cons c cs ih =>
    rw [List.cons_append, List.dropWhile_cons, if_pos (h c (by simp))]
    exact ih (fun x hx => h x (by simp [hx]))

theorem dropWhile_eq_nil_of_forall {p : Char → Bool} {l : PyStr}
    (h : ∀ x ∈ l, p x = true) : l.dropWhile p = [] :=
  List.dropWhile_eq_nil_iff.mpr h

theorem dropWhile_append_of_cons {p : Char → Bool} {l l₂ : PyStr} {c : Char} {cs : PyStr}
    (h : l.dropWhile p = c :: cs) : (l ++ l₂).dropWhile p = c :: (cs ++ l₂) := by
  induction l with
  | nil => simp at h
  | cons a l ih =>
    rw [List.dropWhile_cons] at h
    rw [List.cons_append, List.dropWhile_cons]
    by_cases ha : p a = true
    · rw [if_pos ha] at h
      rw [if_pos ha]
      exact ih h
    · rw [if_neg ha] at h
      rw [if_neg ha]
      obtain ⟨rfl, rfl⟩ : a = c ∧ l = cs := by
        injection h with h1 h2
        exact ⟨h1, h2⟩
      rfl

theorem pyStripLeft_append_ws {a x : PyStr} (ha : wsOnly a) :
    pyStripLeft (a ++ x) = pyStripLeft x :=
  dropWhile_append_of_forall ha

theorem pyStripRight_append_ws {x b : PyStr} (hb : wsOnly b) :
    pyStripRight (x ++ b) = pyStripRight x := by
  unfold pyStripRight
  rw [List.reverse_append,
    dropWhile_append_of_forall (fun c hc => hb c (List.mem_reverse.mp hc))]

theorem pyStrip_wrap {core s : PyStr} (h : wsWrap core s) : pyStrip s = pyStrip core := by
  obtain ⟨a, b, ha, hb, rfl⟩ := h
  unfold pyStrip
  rw [List.append_assoc, pyStripLeft_append_ws ha]
  cases hcore : pyStripLeft core with
  | nil =>
    have hcw : ∀ x ∈ core, pyIsSpace x = true := List.dropWhile_eq_nil_iff.mp hcore
    have h1 : pyStripLeft (core ++ b) = [] :=
      dropWhile_eq_nil_of_forall (fun x hx => by
        rcases List.mem_append.mp hx with h | h
        · exact hcw x h
        · exact hb x h)
    rw [h1]
  | cons c cs =>
    rw [show pyStripLeft (core ++ b) = c :: (cs ++ b) from dropWhile_append_of_cons hcore]
    rw [show (c :: (cs ++ b) : PyStr) = (c :: cs) ++ b from rfl]
    exact pyStripRight_append_ws hb

theorem pyToLower_ws {c : Char} (h : pyIsSpace c = true) : pyToLower c = c := by
  simp only [pyIsSpace, Bool.or_eq_true, beq_iff_eq] at h
  rcases h with ((((h | h) | h) | h) | h) | h <;> subst h <;> decide

theorem pyToUpper_ws {c : Char} (h : pyIsSpace c = true) : pyToUpper c = c := by
  simp only [pyIsSpace, Bool.or_eq_true, beq_iff_eq] at h
  rcases h with ((((h | h) | h) | h) | h) | h <;> subst h <;> decide

theorem map_id_of_forall {f : Char → Char} {a : PyStr} (h : ∀ c ∈ a, f c = c) :
    a.map f = a := by
  induction a with
  | nil => rfl
  | cons c cs ih => rw [List.map_cons, h c (by simp), ih (fun x hx => h x (by simp [hx]))]

theorem wsOnly_map_lower {a : PyStr} (ha : wsOnly a) : wsOnly (a.map pyToLower) := by
  intro c hc
  obtain ⟨x, hx, rfl⟩ := List.mem_map.mp hc
  rw [pyToLower_ws (ha x hx)]
  exact ha x hx

theorem wsOnly_map_upper {a : PyStr} (ha : wsOnly a) : wsOnly (a.map pyToUpper) := by
  intro c hc
  obtain ⟨x, hx, rfl⟩ := List.mem_map.mp hc
  rw [pyToUpper_ws (ha x hx)]
  exact ha x hx

theorem strip_lower_of_wsCaseEquiv {s t : PyStr} (h : wsCaseEquiv s t) :
    pyStrip (pyLower s) = pyStrip (pyLower t) := by
  obtain ⟨u, v, hLow, hUp, ⟨a, b, ha, hb, rfl⟩, ⟨c, d, hc, hd, rfl⟩⟩ := h
  have e1 : pyStrip (pyLower (a ++ u ++ b)) = pyStrip (pyLower u) :=
    pyStrip_wrap ⟨pyLower a, pyLower b, wsOnly_map_lower ha, wsOnly_map_lower hb, by
      simp [pyLower]⟩
  have e2 : pyStrip (pyLower (c ++ v ++ d)) = pyStrip (pyLower v) :=
    pyStrip_wrap ⟨pyLower c, pyLower d, wsOnly_map_lower hc, wsOnly_map_lower hd, by
      simp [pyLower]⟩
  rw [e1, e2, hLow]

theorem strip_upper_of_wsCaseEquiv {s t : PyStr} (h : wsCaseEquiv s t) :
    pyStrip (pyUpper s) = pyStrip (pyUpper t) := by
  obtain ⟨u, v, hLow, hUp, ⟨a, b, ha, hb, rfl⟩, ⟨c, d, hc, hd, rfl⟩⟩ := h
  have e1 : pyStrip (pyUpper (a ++ u ++ b)) = pyStrip (pyUpper u) :=
    pyStrip_wrap ⟨pyUpper a, pyUpper b, wsOnly_map_upper ha, wsOnly_map_upper hb, by
      simp [pyUpper]⟩
  have e2 : pyStrip (pyUpper (c ++ v ++ d)) = pyStrip (pyUpper v) :=
    pyStrip_wrap ⟨pyUpper c, pyUpper d, wsOnly_map_upper hc, wsOnly_map_upper hd, by
      simp [pyUpper]⟩
  rw [e1, e2, hUp]

theorem strip_of_wsEquiv {s t : PyStr} (h : wsEquiv s t) : pyStrip s = pyStrip t := by
  obtain ⟨core, h1, h2⟩ := h
  rw [pyStrip_wrap h1, pyStrip_wrap h2]

/-- C4: identity-key stability under normalization.  Two records that differ
only in the letter case of the executive (subject) or ticker field, or in
incidental (leading/trailing) whitespace of any of the four key fields, produce
the identical `get_trade_key` string.  The key is a pure function of the record
alone, so it involves no randomness and no environment state. -/
theorem trade_key_stable (t₁ t₂ : Trade)
    (hex : wsCaseEquiv t₁.executive t₂.executive)
    (htk : wsCaseEquiv t₁.ticker t₂.ticker)
    (hdt : wsEquiv t₁.trade_date t₂.trade_date)
    (hv : wsEquiv t₁.value t₂.value) :
    get_trade_key t₁ = get_trade_key t₂ := by
  unfold get_trade_key
  rw [strip_lower_of_wsCaseEquiv hex, strip_upper_of_wsCaseEquiv htk,
    strip_of_wsEquiv hdt, strip_of_wsEquiv hv]

/-- Witness for `trade_key_stable` at a concrete pair of records. -/
theorem wsOnly_nil : wsOnly [] := by
  unfold wsOnly
  decide

theorem wsOnly_space : wsOnly (" ".toList) := by
  unfold wsOnly
  decide

theorem trade_key_stable_witness :
    wsCaseEquiv (" Tim Cook".toList) ("tim COOK".toList) ∧
    wsCaseEquiv ("aapl ".toList) ("AAPL".toList) ∧
    wsEquiv ("2026-01-25".toList) ("2026-01-25 ".toList) ∧
    wsEquiv ("$500,000".toList) (" $500,000".toList) ∧
    get_trade_key ⟨" Tim Cook".toList, "aapl ".toList, "CEO".toList, "Apple".toList,
        "$500,000".toList, "5,000".toList, "2026-01-25".toList⟩ =
      get_trade_key ⟨"tim COOK".toList, "AAPL".toList, "CEO".toList, "Apple".toList,
        " $500,000".toList, "5,000".toList, "2026-01-25 ".toList⟩ := by
  have h1 : wsCaseEquiv (" Tim Cook".toList) ("tim COOK".toList) :=
    ⟨"Tim Cook".toList, "tim COOK".toList, by decide, by decide,
      ⟨" ".toList, [], wsOnly_space, wsOnly_nil, by decide⟩,
      ⟨[], [], wsOnly_nil, wsOnly_nil, by decide⟩⟩
  have h2 : wsCaseEquiv ("aapl ".toList) ("AAPL".toList) :=
    ⟨"aapl".toList, "AAPL".toList, by decide, by decide,
      ⟨[], " ".toList, wsOnly_nil, wsOnly_space, by decide⟩,
      ⟨[], [], wsOnly_nil, wsOnly_nil, by decide⟩⟩
  have h3 : wsEquiv ("2026-01-25".toList) ("2026-01-25 ".toList) :=
    ⟨"2026-01-25".toList, ⟨[], [], wsOnly_nil, wsOnly_nil, by decide⟩,
      ⟨[], " ".toList, wsOnly_nil, wsOnly_space, by decide⟩⟩
  have h4 : wsEquiv ("$500,000".toList) (" $500,000".toList) :=
    ⟨"$500,000".toList, ⟨[], [], wsOnly_nil, wsOnly_nil, by decide⟩,
      ⟨" ".toList, [], wsOnly_space, wsOnly_nil, by decide⟩⟩
  exact ⟨h1, h2, h3, h4, trade_key_stable _ _ h1 h2 h3 h4⟩

theorem length_filterMap_eq_countP {α β : Type} (f : α → Option β) (l : List α) :
    (l.filterMap f).length = l.countP (fun a => (f a).isSome) := by
  induction l with
  | nil => rfl
  | cons a l ih =>
    cases h : f a <;> simp [List.filterMap_cons, h, List.countP_cons, ih]

theorem filterMap_eq_filterMap_filter {α β : Type} (f : α → Option β) (l : List α) :
    l.filterMap f = (l.filter (fun a => (f a).isSome)).filterMap f := by
  induction l with
  | nil => rfl
  | cons a l ih =>
    cases h : f a <;> simp [List.filterMap_cons, List.filter_cons, h, ih]

theorem filterMap_middle_none {α β : Type} (f : α → Option β) (pre post : List α) (bad : α)
    (h : f bad = none) :
    (pre ++ bad :: post).filterMap f = (pre ++ post).filterMap f := by
  simp [List.filterMap_append, List.filterMap_cons, h]

/-- C3: parser tolerance of the Line-JSON extractor.  On a block free of the
`NO_TRADES` sentinel whose lines split into N lines accepted by the line step
(stripped line brace-delimited and decoding) and M lines rejected by it, the
extractor yields exactly N candidates; the candidates are precisely the decoded
accepted lines in their original order; and inserting a rejected line at any
position leaves the extraction unchanged. -/
theorem line_json_tolerance (decode : PyStr → Option Trade) (content : PyStr) (N M : Nat)
    (hs : hasSubstr ("NO_TRADES".toList) (pyUpper content) = false)
    (hN : (splitNl content).countP (fun l => (json_line_step decode l).isSome) = N)
    (hM : (splitNl content).countP (fun l => (json_line_step decode l).isNone) = M) :
    (fetch_insider_trades_extract decode content).length = N ∧
    fetch_insider_trades_extract decode content =
      parse_trade_lines decode
        ((splitNl content).filter (fun l => (json_line_step decode l).isSome)) ∧
    ∀ pre post bad, json_line_step decode bad = none →
      parse_trade_lines decode (pre ++ bad :: post) =
        parse_trade_lines decode (pre ++ post) := by
  have hex : fetch_insider_trades_extract decode content =
      parse_trade_lines decode (splitNl content) := by
    have hns : ¬ (hasSubstr ("NO_TRADES".toList) (pyUpper content) = true) := by
      rw [hs]
      exact Bool.false_ne_true
    unfold fetch_insider_trades_extract
    rw [if_neg hns]
  refine ⟨?_, ?_, ?_⟩
  · rw [hex, parse_trade_lines, length_filterMap_eq_countP, hN]
  · rw [hex, parse_trade_lines, parse_trade_lines, filterMap_eq_filterMap_filter]
  · intro pre post bad hbad
    unfold parse_trade_lines
    exact filterMap_middle_none _ _ _ _ hbad

/-- Witness for `line_json_tolerance`: one well-formed line plus one malformed
line yield exactly one candidate. -/
theorem line_json_tolerance_witness :
    hasSubstr ("NO_TRADES".toList) (pyUpper (okLine ++ '\n' :: "garbage".toList)) = false ∧
    (splitNl (okLine ++ '\n' :: "garbage".toList)).countP
        (fun l => (json_line_step okDecode l).isSome) = 1 ∧
    (splitNl (okLine ++ '\n' :: "garbage".toList)).countP
        (fun l => (json_line_step okDecode l).isNone) = 1 ∧
    (fetch_insider_trades_extract okDecode (okLine ++ '\n' :: "garbage".toList)).length = 1 :=
  ⟨by decide, by decide, by decide,
    (line_json_tolerance okDecode (okLine ++ '\n' :: "garbage".toList) 1 1
      (by decide) (by decide) (by decide)).1⟩

theorem repStore_nodup (ch : Char) (n : Nat) : (repStore ch n).Nodup := by
  unfold repStore
  refine List.Nodup.map ?_ (List.nodup_range n)
  intro a b hab
  have hl := congrArg List.length hab
  simp only [List.length_replicate] at hl
  omega

theorem repStore_length (ch : Char) (n : Nat) : (repStore ch n).length = n := by
  simp [repStore]

theorem mem_repStore {ch : Char} {n : Nat} {s : PyStr} (h : s ∈ repStore ch n) :
    ∃ m, s = ch :: List.replicate m ch := by
  unfold repStore at h
  obtain ⟨i, _, rfl⟩ := List.mem_map.mp h
  exact ⟨i, by simp [List.replicate_succ]⟩

theorem mem_save_of_le_cap {posted : List PyStr} (hcap : posted.length ≤ 500) {k : PyStr} :
    k ∈ save_posted_trades posted ↔ k ∈ posted := by
  unfold save_posted_trades
  rw [Nat.sub_eq_zero_of_le hcap, List.drop_zero]
  exact (List.perm_insertionSort _ _).mem_iff

theorem not_mem_save_of_countP {k : PyStr} {posted : List PyStr}
    (h : 500 ≤ posted.countP (fun s => decide (k < s))) :
    k ∉ save_posted_trades posted := by
  intro hk
  unfold save_posted_trades at hk
  have hperm : List.Perm (List.insertionSort (· ≤ ·) posted) posted :=
    List.perm_insertionSort _ _
  have hsorted : List.Sorted (· ≤ ·) (List.insertionSort (· ≤ ·) posted) :=
    List.sorted_insertionSort _ _
  set s := List.insertionSort (· ≤ ·) posted with hs
  set n := posted.length - 500 with hn
  have hcount : 500 ≤ s.countP (fun x => decide (k < x)) := by
    rw [hperm.countP_eq]
    exact h
  have hsplit : s = s.take n ++ s.drop n := (List.take_append_drop n s).symm
  have hpair : List.Pairwise (· ≤ ·) (s.take n ++ s.drop n) := by
    rw [← hsplit]
    exact hsorted
  have hcross : ∀ a ∈ s.take n, ∀ b ∈ s.drop n, a ≤ b :=
    (List.pairwise_append.mp hpair).2.2
  have htake : (s.take n).countP (fun x => decide (k < x)) = 0 := by
    rw [List.countP_eq_zero]
    intro a ha
    have hak : a ≤ k := hcross a ha k hk
    simp only [decide_eq_true_eq]
    exact not_lt.mpr hak
  have hdroplen : (s.drop n).length ≤ 500 := by
    rw [List.length_drop]
    have hl : s.length = posted.length := hperm.length_eq
    omega
  have hdrop : (s.drop n).countP (fun x => decide (k < x)) < (s.drop n).length := by
    rcases Nat.lt_or_ge ((s.drop n).countP (fun x => decide (k < x))) ((s.drop n).length)
      with hlt | hge
    · exact hlt
    · exfalso
      have heq : (s.drop n).countP (fun x => decide (k < x)) = (s.drop n).length :=
        le_antisymm (List.countP_le_length _) hge
      have hkk := List.countP_eq_length.mp heq k hk
      simp at hkk
  have htotal : s.countP (fun x => decide (k < x)) =
      (s.take n).countP (fun x => decide (k < x)) +
        (s.drop n).countP (fun x => decide (k < x)) := by
    conv_lhs => rw [hsplit]
    exact List.countP_append _ _ _
  omega

/-- C2: store cap with lexical eviction.  Saving a store of 600 distinct keys
persists exactly 500 of them, and every evicted key is lexicographically below
every persisted key, i.e. the persisted keys are precisely the 500
lexicographically greatest of the 600. -/
theorem store_cap_lexical (keys : List PyStr) (hnd : keys.Nodup) (hlen : keys.length = 600) :
    (save_posted_trades keys).length = 500 ∧
    (∀ k ∈ save_posted_trades keys, k ∈ keys) ∧
    ∀ a ∈ save_posted_trades keys, ∀ b ∈ keys, b ∉ save_posted_trades keys → b < a := by
  have hperm := List.perm_insertionSort (· ≤ ·) keys
  have hsorted := List.sorted_insertionSort (· ≤ ·) keys
  have hslen : (List.insertionSort (· ≤ ·) keys).length = 600 := by
    rw [hperm.length_eq, hlen]
  have hsave : save_posted_trades keys = (List.insertionSort (· ≤ ·) keys).drop 100 := by
    unfold save_posted_trades
    rw [hlen]
  have hnds : (List.insertionSort (· ≤ ·) keys).Nodup := hperm.nodup_iff.mpr hnd
  set s := List.insertionSort (· ≤ ·) keys with hsdef
  refine ⟨?_, ?_, ?_⟩
  · rw [hsave, List.length_drop, hslen]
  · intro k hk
    rw [hsave] at hk
    exact hperm.mem_iff.mp (List.mem_of_mem_drop hk)
  · intro a ha b hb hbn
    rw [hsave] at ha hbn
    have hbs : b ∈ s.take 100 ++ s.drop 100 := by
      rw [List.take_append_drop]
      exact hperm.mem_iff.mpr hb
    have hbtake : b ∈ s.take 100 := by
      rcases List.mem_append.mp hbs with h | h
      · exact h
      · exact absurd h hbn
    have hpair : List.Pairwise (· ≤ ·) (s.take 100 ++ s.drop 100) := by
      rw [List.take_append_drop]
      exact hsorted
    have hble : b ≤ a := (List.pairwise_append.mp hpair).2.2 b hbtake a ha
    have hnba : b ≠ a := by
      intro heq
      have hpairnd : (s.take 100 ++ s.drop 100).Nodup := by
        rw [List.take_append_drop]
        exact hnds
      exact (List.nodup_append.mp hpairnd).2.2 hbtake (heq ▸ ha)
  -- strict inequality from weak inequality and distinctness
    exact lt_of_le_of_ne hble hnba

/-- Witness for `store_cap_lexical` at a concrete 600-key store. -/
theorem store_cap_lexical_witness :
    (repStore 'k' 600).Nodup ∧ (repStore 'k' 600).length = 600 ∧
    (save_posted_trades (repStore 'k' 600)).length = 500 :=
  ⟨repStore_nodup 'k' 600, repStore_length 'k' 600,
    (store_cap_lexical _ (repStore_nodup 'k' 600) (repStore_length 'k' 600)).1⟩

theorem filterNewTrades_suffix (ts : List Trade) (posted : List PyStr) :
    ∃ ks, (filterNewTrades ts posted).2 = ks ++ posted := by
  induction ts generalizing posted with
  | nil => exact ⟨[], rfl⟩
  | cons t ts ih =>
    by_cases h : get_trade_key t ∈ posted
    · simpa [filterNewTrades, h] using @ih posted
    · obtain ⟨ks, hks⟩ := ih (get_trade_key t :: posted)
      refine ⟨ks ++ [get_trade_key t], ?_⟩
      simp [filterNewTrades, h, hks]

theorem mem_snd_filterNewTrades {ts : List Trade} {posted : List PyStr} {t : Trade}
    (ht : t ∈ ts) : get_trade_key t ∈ (filterNewTrades ts posted).2 := by
  induction ts generalizing posted with
  | nil => cases ht
  | cons s ts ih =>
    rcases List.mem_cons.mp ht with rfl | hmem
    · by_cases h : get_trade_key t ∈ posted
      · obtain ⟨ks, hks⟩ := filterNewTrades_suffix ts posted
        simp only [filterNewTrades, if_pos h, hks]
        exact List.mem_append_right ks h
      · obtain ⟨ks, hks⟩ := filterNewTrades_suffix ts (get_trade_key t :: posted)
        simp only [filterNewTrades, if_neg h, hks]
        exact List.mem_append_right ks (List.mem_cons_self _ _)
    · by_cases h : get_trade_key s ∈ posted
      · simpa [filterNewTrades, h] using @ih posted hmem
      · simpa [filterNewTrades, h] using @ih (get_trade_key s :: posted) hmem

theorem fst_nil_imp_seen {ts : List Trade} {posted : List PyStr}
    (h : (filterNewTrades ts posted).1 = []) : ∀ t ∈ ts, get_trade_key t ∈ posted := by
  induction ts generalizing posted with
  | nil => intro t ht; cases ht
  | cons s ts ih =>
    by_cases hs : get_trade_key s ∈ posted
    · intro t ht
      rcases List.mem_cons.mp ht with rfl | hmem
      · exact hs
      · exact @ih posted (by simpa [filterNewTrades, hs] using h) t hmem
    · exfalso
      simp [filterNewTrades, hs] at h

theorem all_seen_imp_fst_nil {ts : List Trade} {posted : List PyStr}
    (h : ∀ t ∈ ts, get_trade_key t ∈ posted) : filterNewTrades ts posted = ([], posted) := by
  induction ts with
  | nil => rfl
  | cons s ts ih =>
    have hs : get_trade_key s ∈ posted := h s (by simp)
    simp only [filterNewTrades, if_pos hs]
    exact ih (fun t ht => h t (by simp [ht]))

theorem fst_subset_filterNewTrades {ts : List Trade} {posted : List PyStr} :
    ∀ t ∈ (filterNewTrades ts posted).1, t ∈ ts := by
  induction ts generalizing posted with
  | nil => intro t ht; simp [filterNewTrades] at ht
  | cons s ts ih =>
    intro t ht
    by_cases hs : get_trade_key s ∈ posted
    · simp only [filterNewTrades, if_pos hs] at ht
      exact List.mem_cons_of_mem s (ih _ ht)
    · simp only [filterNewTrades, if_neg hs] at ht
      rcases List.mem_cons.mp ht with rfl | hmem
      · simp
      · exact List.mem_cons_of_mem s (ih _ hmem)

theorem keys_nodup_filterNewTrades {ts : List Trade} {posted : List PyStr} :
    ((filterNewTrades ts posted).1.map get_trade_key).Nodup ∧
      ∀ t ∈ (filterNewTrades ts posted).1, get_trade_key t ∉ posted := by
  induction ts generalizing posted with
  | nil =>
    refine ⟨List.nodup_nil, ?_⟩
    intro t ht
    simp [filterNewTrades] at ht
  | cons s ts ih =>
    by_cases hs : get_trade_key s ∈ posted
    · simpa [filterNewTrades, hs] using @ih posted
    · obtain ⟨ihn, ihp⟩ := @ih (get_trade_key s :: posted)
      constructor
      · simp only [filterNewTrades, if_neg hs, List.map_cons]
        refine List.nodup_cons.mpr ⟨?_, ihn⟩
        intro hmem
        obtain ⟨t, htmem, hteq⟩ := List.mem_map.mp hmem
        exact ihp t htmem (by rw [hteq]; exact List.mem_cons_self _ _)
      · intro t ht
        simp only [filterNewTrades, if_neg hs] at ht
        rcases List.mem_cons.mp ht with rfl | hmem
        · exact hs
        · intro hp
          exact ihp t hmem (List.mem_cons_of_mem _ hp)

theorem process_insider_eq_none {trades : List Trade} {file : List PyStr}
    (h1 : (filterNewTrades trades (load_posted_trades file)).1 = []) :
    process_insider_purchases trades file = ⟨[], file⟩ := by
  unfold process_insider_purchases
  by_cases h0 : trades = []
  · rw [if_pos h0]
  · rw [if_neg h0]
    simp [h1]

theorem process_insider_eq_new {trades : List Trade} {file : List PyStr}
    (h1 : (filterNewTrades trades (load_posted_trades file)).1 ≠ []) :
    process_insider_purchases trades file =
      ⟨(if 1 < (filterNewTrades trades (load_posted_trades file)).1.length then
          [create_summary_embed (filterNewTrades trades (load_posted_trades file)).1.length
            ((filterNewTrades trades
              (load_posted_trades file)).1.map Trade.executive).dedup.length]
        else [])
          ++ ((filterNewTrades trades (load_posted_trades file)).1.take 9).map
              create_trade_embed,
        save_posted_trades (filterNewTrades trades (load_posted_trades file)).2⟩ := by
  have h0 : trades ≠ [] := by
    intro h
    subst h
    simp [filterNewTrades] at h1
  unfold process_insider_purchases
  rw [if_neg h0]
  simp [h1]

/-- C1 (amended): run-to-run idempotence of the dedup pipeline, provided the
in-memory key set at save time (the loaded keys together with the batch's new
keys) does not exceed the 500-key cap — so the truncating save evicts nothing.
Then after a first run over a fetched trade list, every trade's identity key is
in the loaded store of the next run, the second run classifies every trade as
already seen, and the second run produces no embeds. -/
theorem insider_dedup_idempotent (trades : List Trade) (file : List PyStr)
    (hcap : (filterNewTrades trades (load_posted_trades file)).2.length ≤ 500) :
    (∀ t ∈ trades,
      get_trade_key t ∈ load_posted_trades (process_insider_purchases trades file).file) ∧
    (filterNewTrades trades
      (load_posted_trades (process_insider_purchases trades file).file)).1 = [] ∧
    (process_insider_purchases trades (process_insider_purchases trades file).file).embeds
      = [] := by
  by_cases h1 : (filterNewTrades trades (load_posted_trades file)).1 = []
  · have hrun : process_insider_purchases trades file = ⟨[], file⟩ :=
      process_insider_eq_none h1
    have hseen : ∀ t ∈ trades, get_trade_key t ∈ load_posted_trades file :=
      fst_nil_imp_seen h1
    rw [hrun]
    refine ⟨hseen, ?_, ?_⟩
    · exact h1
    · rw [process_insider_eq_none h1]
  · have hfile : (process_insider_purchases trades file).file =
        save_posted_trades (filterNewTrades trades (load_posted_trades file)).2 := by
      rw [process_insider_eq_new h1]
    have hload : ∀ t ∈ trades,
        get_trade_key t ∈ load_posted_trades (process_insider_purchases trades file).file := by
      intro t ht
      apply List.mem_dedup.mpr
      rw [hfile]
      exact (mem_save_of_le_cap hcap).mpr (mem_snd_filterNewTrades ht)
    refine ⟨hload, ?_, ?_⟩
    · rw [all_seen_imp_fst_nil hload]
    · rw [process_insider_eq_none (by rw [all_seen_imp_fst_nil hload])]

/-- Witness for `insider_dedup_idempotent` at a concrete one-trade run. -/
theorem insider_dedup_idempotent_witness :
    (filterNewTrades [annTrade] (load_posted_trades [])).2.length ≤ 500 ∧
    (process_insider_purchases [annTrade]
      (process_insider_purchases [annTrade] []).file).embeds = [] :=
  ⟨by decide, (insider_dedup_idempotent [annTrade] [] (by decide)).2.2⟩

/-- Counterexample to C1 as stated: against a persisted store already holding
500 lexicographically greater keys, the first run's (successful) save evicts
the new trade's key, so the second run re-classifies the same trade as new and
produces an embed again. -/
theorem insider_dedup_idempotent_counterexample :
    get_trade_key annTrade ∉ (process_insider_purchases [annTrade] zStore).file ∧
    (process_insider_purchases [annTrade]
      (process_insider_purchases [annTrade] zStore).file).embeds ≠ [] := by
  have hload : load_posted_trades zStore = zStore := List.Nodup.dedup (repStore_nodup 'z' 500)
  have hkey : get_trade_key annTrade = 'a' :: "nn|T|2026-01-01|$1".toList := by decide
  have hnotmem : get_trade_key annTrade ∉ zStore := by
    intro hmem
    obtain ⟨m, hm⟩ := mem_repStore hmem
    rw [hkey] at hm
    injection hm with h1 _
    exact absurd h1 (by decide)
  have hflt : filterNewTrades [annTrade] zStore =
      ([annTrade], get_trade_key annTrade :: zStore) := by
    simp [filterNewTrades, hnotmem]
  have hlt : ∀ s ∈ zStore, get_trade_key annTrade < s := by
    intro s hs
    obtain ⟨m, rfl⟩ := mem_repStore hs
    rw [hkey]
    exact List.Lex.rel (by decide)
  have hcount : 500 ≤ (get_trade_key annTrade :: zStore).countP
      (fun s => decide (get_trade_key annTrade < s)) := by
    have hz : zStore.countP (fun s => decide (get_trade_key annTrade < s)) = 500 := by
      rw [List.countP_eq_length.mpr ?_]
      · exact repStore_length 'z' 500
      · intro s hs
        simpa using hlt s hs
    rw [List.countP_cons, hz]
    omega
  have hsavenot : get_trade_key annTrade ∉
      save_posted_trades (get_trade_key annTrade :: zStore) :=
    not_mem_save_of_countP hcount
  have h1 : (filterNewTrades [annTrade] (load_posted_trades zStore)).1 ≠ [] := by
    rw [hload, hflt]
    simp
  have hfile : (process_insider_purchases [annTrade] zStore).file =
      save_posted_trades (get_trade_key annTrade :: zStore) := by
    rw [process_insider_eq_new h1, hload, hflt]
  have hnot2 : get_trade_key annTrade ∉ (process_insider_purchases [annTrade] zStore).file := by
    rw [hfile]
    exact hsavenot
  have hnotload : get_trade_key annTrade ∉
      load_posted_trades (process_insider_purchases [annTrade] zStore).file := by
    intro hmem
    exact hnot2 (List.mem_dedup.mp hmem)
  have h1' : (filterNewTrades [annTrade]
      (load_posted_trades (process_insider_purchases [annTrade] zStore).file)).1 ≠ [] := by
    simp [filterNewTrades, hnotload]
  refine ⟨hnot2, ?_⟩
  rw [process_insider_eq_new h1']
  have hflt2 : filterNewTrades [annTrade]
      (load_posted_trades (process_insider_purchases [annTrade] zStore).file) =
      ([annTrade], get_trade_key annTrade ::
        load_posted_trades (process_insider_purchases [annTrade] zStore).file) := by
    simp [filterNewTrades, hnotload]
  rw [hflt2]
  simp

theorem key_eq_of_embed_eq {t s : Trade}
    (h : create_trade_embed t = create_trade_embed s) :
    get_trade_key t = get_trade_key s := by
  unfold create_trade_embed at h
  injection h with h1 h2 h3 h4 h5 h6 h7
  unfold get_trade_key
  rw [h1, h2, h5, h7]

theorem filterNewTrades_all_new {ts : List Trade} {posted : List PyStr}
    (hnew : ∀ t ∈ ts, get_trade_key t ∉ posted)
    (hnd : (ts.map get_trade_key).Nodup) :
    (filterNewTrades ts posted).1 = ts := by
  induction ts generalizing posted with
  | nil => rfl
  | cons s ts ih =>
    have hs : get_trade_key s ∉ posted := hnew s (by simp)
    simp only [filterNewTrades, if_neg hs]
    rw [List.map_cons, List.nodup_cons] at hnd
    have htail : (filterNewTrades ts (get_trade_key s :: posted)).1 = ts := by
      refine ih ?_ hnd.2
      intro t ht hmem
      rcases List.mem_cons.mp hmem with heq | hp
      · exact hnd.1 (heq ▸ List.mem_map_of_mem get_trade_key ht)
      · exact hnew t (List.mem_cons_of_mem s ht) hp
    rw [htail]

theorem bobTrade_key_cons (tk : PyStr) :
    get_trade_key (bobTrade tk) =
      'b' :: ((("ob".toList ++ '|' :: pyStrip (pyUpper tk))
        ++ '|' :: pyStrip ("2026-01-01".toList)) ++ '|' :: pyStrip ("$1".toList)) := rfl

theorem bobTrade_key_lt_zStore (tk : PyStr) {s : PyStr} (hs : s ∈ zStore) :
    get_trade_key (bobTrade tk) < s := by
  obtain ⟨m, rfl⟩ := mem_repStore hs
  rw [bobTrade_key_cons]
  exact List.Lex.rel (by decide)

theorem bobTrade_key_not_mem_zStore (tk : PyStr) :
    get_trade_key (bobTrade tk) ∉ zStore := by
  intro hmem
  obtain ⟨m, hm⟩ := mem_repStore hmem
  rw [bobTrade_key_cons] at hm
  injection hm with h1 _
  exact absurd h1 (by decide)

/-- C10 (amended): the nine-embed limit of the insider bot.  Provided the key
set at save time stays within the 500-key cap, a run whose batch classifies
more than 9 new trades persists the key of every new trade, emits a summary
embed followed by individual embeds for exactly the first 9 new trades, emits
no individual embed for any trade past the ninth, and a following run over the
same fetched list produces nothing — so trades past the ninth are never
notified. -/
theorem insider_silent_drop_past_ninth (trades : List Trade) (file : List PyStr)
    (newT : List Trade) (pos : List PyStr)
    (hr : filterNewTrades trades (load_posted_trades file) = (newT, pos))
    (h9 : 9 < newT.length) (hcap : pos.length ≤ 500) :
    (∀ t ∈ newT, get_trade_key t ∈ (process_insider_purchases trades file).file) ∧
    (process_insider_purchases trades file).embeds =
      create_summary_embed newT.length (newT.map Trade.executive).dedup.length
        :: (newT.take 9).map create_trade_embed ∧
    (∀ t ∈ newT.drop 9,
      create_trade_embed t ∉ (process_insider_purchases trades file).embeds) ∧
    (process_insider_purchases trades
      (process_insider_purchases trades file).file).embeds = [] := by
  have hfst : (filterNewTrades trades (load_posted_trades file)).1 = newT := by rw [hr]
  have hsnd : (filterNewTrades trades (load_posted_trades file)).2 = pos := by rw [hr]
  have h1 : (filterNewTrades trades (load_posted_trades file)).1 ≠ [] := by
    rw [hfst]
    intro hnil
    rw [hnil] at h9
    simp at h9
  have hrun := process_insider_eq_new h1
  rw [hfst, hsnd] at hrun
  have h9' : 1 < newT.length := by omega
  have hembeds : (process_insider_purchases trades file).embeds =
      create_summary_embed newT.length (newT.map Trade.executive).dedup.length
        :: (newT.take 9).map create_trade_embed := by
    rw [hrun]
    simp [if_pos h9']
  have hfilesave : (process_insider_purchases trades file).file = save_posted_trades pos := by
    rw [hrun]
  have hmemfile : ∀ t ∈ newT,
      get_trade_key t ∈ (process_insider_purchases trades file).file := by
    intro t ht
    rw [hfilesave]
    refine (mem_save_of_le_cap hcap).mpr ?_
    have hm := @mem_snd_filterNewTrades trades (load_posted_trades file) t
      (fst_subset_filterNewTrades t (by rw [hfst]; exact ht))
    rw [hsnd] at hm
    exact hm
  have hnodup : (newT.map get_trade_key).Nodup := by
    have hk := (@keys_nodup_filterNewTrades trades (load_posted_trades file)).1
    rw [hfst] at hk
    exact hk
  have hdropnot : ∀ t ∈ newT.drop 9,
      create_trade_embed t ∉ (process_insider_purchases trades file).embeds := by
    intro t ht hmem
    rw [hembeds] at hmem
    rcases List.mem_cons.mp hmem with heq | hmem2
    · simp [create_trade_embed, create_summary_embed] at heq
    · obtain ⟨s, hsmem, hseq⟩ := List.mem_map.mp hmem2
      have hkeq : get_trade_key s = get_trade_key t := key_eq_of_embed_eq hseq
      have hnd2 : ((newT.take 9).map get_trade_key
          ++ (newT.drop 9).map get_trade_key).Nodup := by
        rw [← List.map_append, List.take_append_drop]
        exact hnodup
      exact (List.nodup_append.mp hnd2).2.2 (List.mem_map_of_mem _ hsmem)
        (by rw [hkeq]; exact List.mem_map_of_mem _ ht)
  have hseen2 : ∀ t ∈ trades,
      get_trade_key t ∈ load_posted_trades (process_insider_purchases trades file).file := by
    intro t ht
    apply List.mem_dedup.mpr
    rw [hfilesave]
    refine (mem_save_of_le_cap hcap).mpr ?_
    have hm := @mem_snd_filterNewTrades trades (load_posted_trades file) t ht
    rw [hsnd] at hm
    exact hm
  refine ⟨hmemfile, hembeds, hdropnot, ?_⟩
  rw [process_insider_eq_none (by rw [all_seen_imp_fst_nil hseen2])]

/-- Witness for `insider_silent_drop_past_ninth` at a concrete ten-trade run. -/
theorem insider_silent_drop_past_ninth_witness :
    9 < (filterNewTrades bobTrades (load_posted_trades [])).1.length ∧
    (filterNewTrades bobTrades (load_posted_trades [])).2.length ≤ 500 ∧
    (process_insider_purchases bobTrades
      (process_insider_purchases bobTrades []).file).embeds = [] :=
  ⟨by decide, by decide,
    (insider_silent_drop_past_ninth bobTrades [] _ _ rfl (by decide) (by decide)).2.2.2⟩

/-- Counterexample to C10 as stated: against a persisted store already holding
500 lexicographically greater keys, a ten-new-trade run does NOT persist the
keys of all new trades — the truncating save evicts them. -/
theorem insider_silent_drop_past_ninth_counterexample :
    9 < (filterNewTrades bobTrades (load_posted_trades zStore)).1.length ∧
    get_trade_key (bobTrade ("A".toList))
      ∈ (filterNewTrades bobTrades (load_posted_trades zStore)).2 ∧
    get_trade_key (bobTrade ("A".toList))
      ∉ (process_insider_purchases bobTrades zStore).file := by
  have hload : load_posted_trades zStore = zStore := List.Nodup.dedup (repStore_nodup 'z' 500)
  have hallnew : ∀ t ∈ bobTrades, get_trade_key t ∉ zStore := by
    intro t ht
    simp only [bobTrades, List.mem_cons, List.not_mem_nil, or_false] at ht
    rcases ht with rfl|rfl|rfl|rfl|rfl|rfl|rfl|rfl|rfl|rfl <;>
      exact bobTrade_key_not_mem_zStore _
  have hbobnd : (bobTrades.map get_trade_key).Nodup := by decide
  have hfst10 : (filterNewTrades bobTrades (load_posted_trades zStore)).1 = bobTrades := by
    rw [hload]
    exact filterNewTrades_all_new hallnew hbobnd
  have hA : bobTrade ("A".toList) ∈ bobTrades := by
    simp [bobTrades]
  refine ⟨?_, mem_snd_filterNewTrades hA, ?_⟩
  · rw [hfst10]
    decide
  · have h1 : (filterNewTrades bobTrades (load_posted_trades zStore)).1 ≠ [] := by
      rw [hfst10]
      simp [bobTrades]
    have hfile : (process_insider_purchases bobTrades zStore).file =
        save_posted_trades (filterNewTrades bobTrades (load_posted_trades zStore)).2 := by
      rw [process_insider_eq_new h1]
    rw [hfile]
    apply not_mem_save_of_countP
    obtain ⟨ks, hks⟩ := filterNewTrades_suffix bobTrades (load_posted_trades zStore)
    rw [hks, List.countP_append, hload]
    have hz : zStore.countP
        (fun s => decide (get_trade_key (bobTrade ("A".toList)) < s)) = 500 := by
      rw [List.countP_eq_length.mpr ?_]
      · exact repStore_length 'z' 500
      · intro s hs
        simpa using bobTrade_key_lt_zStore _ hs
    rw [hz]
    omega

theorem processE_error {trades : List Trade} {file : List PyStr}
    (h1 : (filterNewTrades trades (load_posted_trades file)).1 ≠ []) :
    process_insider_purchasesE trades file false = .error () := by
  have h0 : trades ≠ [] := by
    intro h
    subst h
    simp [filterNewTrades] at h1
  unfold process_insider_purchasesE
  rw [if_neg h0]
  simp [h1]

theorem fst_ne_nil_of_ne_nil_empty {trades : List Trade} (h0 : trades ≠ []) :
    (filterNewTrades trades (load_posted_trades [])).1 ≠ [] := by
  cases trades with
  | nil => exact absurd rfl h0
  | cons t ts =>
    have hni : get_trade_key t ∉ load_posted_trades [] := by
      simp [load_posted_trades]
    simp [filterNewTrades, hni]

/-- C8 (amended): a failed save aborts the run with the raised exception before
any embed is produced, so the notification step receives nothing from that run;
with a succeeding save the run's output is unchanged; and since no valid store
update was written, a later run (loading either the old store or an
absent/corrupt one, i.e. the empty set) classifies new trades again — the
records are delayed, not permanently lost. -/
theorem failed_save_aborts_run (trades : List Trade) (file : List PyStr)
    (h1 : (filterNewTrades trades (load_posted_trades file)).1 ≠ []) :
    process_insider_purchasesE trades file false = .error () ∧
    process_insider_purchasesE trades file true =
      .ok (process_insider_purchases trades file) ∧
    (filterNewTrades trades (load_posted_trades [])).1 ≠ [] := by
  have h0 : trades ≠ [] := by
    intro h
    subst h
    simp [filterNewTrades] at h1
  refine ⟨processE_error h1, ?_, fst_ne_nil_of_ne_nil_empty h0⟩
  unfold process_insider_purchasesE process_insider_purchases
  rw [if_neg h0, if_neg h0]
  simp [h1]

/-- Witness for `failed_save_aborts_run` at a concrete one-trade run. -/
theorem failed_save_aborts_run_witness :
    (filterNewTrades [annTrade] (load_posted_trades [])).1 ≠ [] ∧
    process_insider_purchasesE [annTrade] [] false = .error () :=
  ⟨by decide, (failed_save_aborts_run [annTrade] [] (by decide)).1⟩

/-- Counterexample to C8 as stated: a run that classified one new trade and
whose save fails yields no output at all (the exception propagates), so the
notification step does not receive the classified record. -/
theorem failed_save_loses_output_counterexample :
    (filterNewTrades [annTrade] (load_posted_trades [])).1 = [annTrade] ∧
    process_insider_purchasesE [annTrade] [] false = .error () :=
  ⟨by decide, rfl⟩

/-- C5: cascade rejection outside the recurrence window.  When the first-step
response yields a parseable date other than the target and the day gap lies
outside 30..120 (above 120 or below 30), the function returns False without
issuing the backup confirmation query. -/
theorem cascade_reject_outside_window (date fa ba d' : PyStr) (target returned : Ymd)
    (hd : searchYmd (strip_citations (pyStrip fa)) = some d')
    (hne : d' ≠ date)
    (ht : parseYmd date = some target) (hr : parseYmd d' = some returned)
    (hw : 120 < daysDiff target returned ∨ daysDiff target returned < 30) :
    verify_earnings_date_perplexity date fa ba = ⟨false, false⟩ := by
  have hnw : ¬ (30 ≤ daysDiff target returned ∧ daysDiff target returned ≤ 120) := by
    omega
  simp [verify_earnings_date_perplexity, hd, hne, ht, hr, hnw]

/-- Witness for `cascade_reject_outside_window` with a 398-day gap. -/
theorem cascade_reject_outside_window_witness :
    searchYmd (strip_citations (pyStrip ("2025-01-01".toList))) = some ("2025-01-01".toList) ∧
    ("2025-01-01".toList ≠ ("2026-02-03".toList)) ∧
    parseYmd ("2026-02-03".toList) = some ⟨2026, 2, 3⟩ ∧
    parseYmd ("2025-01-01".toList) = some ⟨2025, 1, 1⟩ ∧
    120 < daysDiff ⟨2026, 2, 3⟩ ⟨2025, 1, 1⟩ ∧
    verify_earnings_date_perplexity ("2026-02-03".toList) ("2025-01-01".toList)
      ("YES".toList) = ⟨false, false⟩ :=
  ⟨by decide, by decide, by decide, by decide, by decide,
    cascade_reject_outside_window ("2026-02-03".toList) ("2025-01-01".toList)
      ("YES".toList) ("2025-01-01".toList) ⟨2026, 2, 3⟩ ⟨2025, 1, 1⟩ (by decide) (by decide)
      (by decide) (by decide) (Or.inl (by decide))⟩

/-- C6 (amended): on the backup path (gap within 30..120), the candidate is
accepted exactly when the processed backup response contains the substring YES
after uppercasing; every response without that substring is rejected.  This is
the code's actual acceptance condition — it is weaker than "explicit
affirmative", since YES inside another word also matches (see the
counterexample). -/
theorem backup_accept_iff_substr (date fa ba d' : PyStr) (target returned : Ymd)
    (hd : searchYmd (strip_citations (pyStrip fa)) = some d')
    (hne : d' ≠ date)
    (ht : parseYmd date = some target) (hr : parseYmd d' = some returned)
    (hw : 30 ≤ daysDiff target returned ∧ daysDiff target returned ≤ 120) :
    verify_earnings_date_perplexity date fa ba =
      ⟨hasSubstr ("YES".toList) (strip_citations (pyUpper (pyStrip ba))), true⟩ := by
  cases hy : hasSubstr ("YES".toList) (strip_citations (pyUpper (pyStrip ba))) <;>
    (simp [verify_earnings_date_perplexity, hd, hne, ht, hr, hw.1, hw.2, hy]; exact hy)

/-- Witness for `backup_accept_iff_substr` with a 90-day gap and answer "yes". -/
theorem backup_accept_iff_substr_witness :
    searchYmd (strip_citations (pyStrip ("2025-11-05".toList))) = some ("2025-11-05".toList) ∧
    parseYmd ("2026-02-03".toList) = some ⟨2026, 2, 3⟩ ∧
    parseYmd ("2025-11-05".toList) = some ⟨2025, 11, 5⟩ ∧
    (30 ≤ daysDiff ⟨2026, 2, 3⟩ ⟨2025, 11, 5⟩ ∧
      daysDiff ⟨2026, 2, 3⟩ ⟨2025, 11, 5⟩ ≤ 120) ∧
    verify_earnings_date_perplexity ("2026-02-03".toList) ("2025-11-05".toList)
      ("yes".toList) =
      ⟨hasSubstr ("YES".toList) (strip_citations (pyUpper (pyStrip ("yes".toList)))), true⟩ :=
  ⟨by decide, by decide, by decide, ⟨by decide, by decide⟩,
    backup_accept_iff_substr ("2026-02-03".toList) ("2025-11-05".toList) ("yes".toList)
      ("2025-11-05".toList) ⟨2026, 2, 3⟩ ⟨2025, 11, 5⟩ (by decide) (by decide) (by decide)
      (by decide) ⟨by decide, by decide⟩⟩

/-- Counterexample to C6 as stated: the explicitly negative backup response
"No, the report was yesterday." is not an explicit affirmative, yet the
candidate is accepted via the backup path because YESTERDAY contains the
substring YES. -/
theorem backup_accept_nonaffirmative_counterexample :
    verify_earnings_date_perplexity ("2026-02-03".toList) ("2025-11-05".toList)
      ("No, the report was yesterday.".toList) = ⟨true, true⟩ ∧
    explicitAffirmative ("No, the report was yesterday.".toList) = false := by
  exact ⟨by decide, by decide⟩

theorem mem_fetch_missing {watched : List PyStr} {date : PyStr}
    {alreadyFound : List EarnRec} {fa ba da : PyStr → PyStr} {r : EarnRec}
    (h : r ∈ fetch_missing_earnings_perplexity watched date alreadyFound fa ba da) :
    r.symbol ∈ missing_tickers watched alreadyFound ∧ r.date = date ∧
    (verify_earnings_date_perplexity date (fa r.symbol) (ba r.symbol)).verified = true ∧
    (fetch_earnings_data_perplexity (da r.symbol)).epsActual.isSome = true := by
  unfold fetch_missing_earnings_perplexity at h
  obtain ⟨t, ht, hft⟩ := List.mem_filterMap.mp h
  split at hft
  · simp only [] at hft
    split at hft
    · injection hft with hr
      subst hr
      exact ⟨ht, rfl, by assumption, by assumption⟩
    · simp at hft
  · simp at hft

theorem map_symbol_filterMap_sublist (f : PyStr → Option EarnRec) (l : List PyStr)
    (h : ∀ t r, f t = some r → r.symbol = t) :
    List.Sublist ((l.filterMap f).map EarnRec.symbol) l := by
  induction l with
  | nil => simp
  | cons t l ih =>
    rw [List.filterMap_cons]
    cases hf : f t with
    | none => exact ih.cons t
    | some r =>
      rw [List.map_cons, h t r hf]
      exact ih.cons₂ t

theorem fetch_missing_symbols_sublist (watched : List PyStr) (date : PyStr)
    (alreadyFound : List EarnRec) (fa ba da : PyStr → PyStr) :
    List.Sublist
      ((fetch_missing_earnings_perplexity watched date alreadyFound fa ba da).map
        EarnRec.symbol)
      (missing_tickers watched alreadyFound) := by
  unfold fetch_missing_earnings_perplexity
  apply map_symbol_filterMap_sublist
  intro t r hft
  split at hft
  · simp only [] at hft
    split at hft
    · injection hft with hr
      subst hr
      rfl
    · simp at hft
  · simp at hft

/-- C7 (amended): numeric-anchor gate on final acceptance.  A missing ticker
that passes date verification is included in the Perplexity-derived record set
iff the follow-up numeric extraction yields an actual-EPS value specifically;
any other extracted figure (estimates, revenue) does not suffice, and with no
actual-EPS value the candidate is dropped even though it was date- or
backup-confirmed. -/
theorem missing_included_iff_eps (watched : List PyStr) (date : PyStr)
    (alreadyFound : List EarnRec) (fa ba da : PyStr → PyStr) (t : PyStr)
    (hmem : t ∈ missing_tickers watched alreadyFound)
    (hver : (verify_earnings_date_perplexity date (fa t) (ba t)).verified = true) :
    (∃ r ∈ fetch_missing_earnings_perplexity watched date alreadyFound fa ba da,
        r.symbol = t) ↔
      (fetch_earnings_data_perplexity (da t)).epsActual.isSome = true := by
  constructor
  · rintro ⟨r, hr, hsym⟩
    have he := (mem_fetch_missing hr).2.2.2
    rw [hsym] at he
    exact he
  · intro he
    refine ⟨⟨t, date, (fetch_earnings_data_perplexity (da t)).epsActual,
      (fetch_earnings_data_perplexity (da t)).epsEstimated,
      (fetch_earnings_data_perplexity (da t)).revenueActual,
      (fetch_earnings_data_perplexity (da t)).revenueEstimated⟩, ?_, rfl⟩
    unfold fetch_missing_earnings_perplexity
    apply List.mem_filterMap.mpr
    refine ⟨t, hmem, ?_⟩
    simp [hver, he]

/-- Witness for `missing_included_iff_eps` on a concrete verified ticker. -/
theorem missing_included_iff_eps_witness :
    ("XOM".toList ∈ missing_tickers ["XOM".toList] []) ∧
    (verify_earnings_date_perplexity ("2026-02-03".toList) ("2025-11-05".toList)
      ("YES".toList)).verified = true ∧
    ((∃ r ∈ fetch_missing_earnings_perplexity ["XOM".toList] ("2026-02-03".toList) []
        (fun _ => "2025-11-05".toList) (fun _ => "YES".toList)
        (fun _ => "EPS_ACTUAL: 0.55".toList), r.symbol = "XOM".toList) ↔
      (fetch_earnings_data_perplexity ("EPS_ACTUAL: 0.55".toList)).epsActual.isSome = true) :=
  ⟨by decide, by decide,
    missing_included_iff_eps ["XOM".toList] ("2026-02-03".toList) []
      (fun _ => "2025-11-05".toList) (fun _ => "YES".toList)
      (fun _ => "EPS_ACTUAL: 0.55".toList) ("XOM".toList) (by decide) (by decide)⟩

/-- Counterexample to C7 as stated: a candidate that passes date verification
and whose numeric extraction yields a concrete anchor value (an actual revenue
figure) is nonetheless dropped, because the code requires an actual-EPS value
specifically. -/
theorem missing_dropped_with_anchor_counterexample :
    (verify_earnings_date_perplexity ("2026-02-03".toList) ("2025-11-05".toList)
      ("YES".toList)).verified = true ∧
    yieldsConcreteAnchor
      (fetch_earnings_data_perplexity ("REVENUE_ACTUAL: 900000000".toList)) = true ∧
    fetch_missing_earnings_perplexity ["XOM".toList] ("2026-02-03".toList) []
      (fun _ => "2025-11-05".toList) (fun _ => "YES".toList)
      (fun _ => "REVENUE_ACTUAL: 900000000".toList) = [] := by
  exact ⟨by decide, by decide, by decide⟩

/-- C9 (amended): merger uniqueness and structured-source precedence, provided
the structured source's filtered records carry pairwise-distinct uppercased
symbols and the watch list holds no duplicate uppercased tickers.  Then the
merged output contains at most one record per uppercased symbol; a ticker
present in the filtered structured records is never placed on the queried
missing-ticker list; and every text-derived record's ticker is absent from the
structured records. -/
theorem merged_unique_and_precedence (watched : List PyStr) (date : PyStr)
    (calendar : List EarnRec) (fa ba da : PyStr → PyStr)
    (hcal : ((filter_watched_earnings watched calendar).map
      (fun e => pyUpper e.symbol)).Nodup)
    (hw : (watched.map pyUpper).Nodup) :
    ((process_earnings_merged watched date calendar fa ba da).map
      (fun e => pyUpper e.symbol)).Nodup ∧
    (∀ t ∈ missing_tickers watched (filter_watched_earnings watched calendar),
      pyUpper t ∉ (filter_watched_earnings watched calendar).map
        (fun e => pyUpper e.symbol)) ∧
    (∀ r ∈ fetch_missing_earnings_perplexity watched date
        (filter_watched_earnings watched calendar) fa ba da,
      pyUpper r.symbol ∉ (filter_watched_earnings watched calendar).map
        (fun e => pyUpper e.symbol)) := by
  have hb : ∀ t ∈ missing_tickers watched (filter_watched_earnings watched calendar),
      pyUpper t ∉ (filter_watched_earnings watched calendar).map
        (fun e => pyUpper e.symbol) := by
    intro t ht
    have hp := List.of_mem_filter ht
    simpa using hp
  have hc : ∀ r ∈ fetch_missing_earnings_perplexity watched date
      (filter_watched_earnings watched calendar) fa ba da,
      pyUpper r.symbol ∉ (filter_watched_earnings watched calendar).map
        (fun e => pyUpper e.symbol) := by
    intro r hr
    exact hb r.symbol (mem_fetch_missing hr).1
  refine ⟨?_, hb, hc⟩
  unfold process_earnings_merged
  rw [List.map_append]
  apply List.nodup_append.mpr
  refine ⟨hcal, ?_, ?_⟩
  · have hsub := fetch_missing_symbols_sublist watched date
      (filter_watched_earnings watched calendar) fa ba da
    have hsub2 := hsub.map pyUpper
    have hmnd : ((missing_tickers watched
        (filter_watched_earnings watched calendar)).map pyUpper).Nodup := by
      unfold missing_tickers
      exact hw.sublist ((List.filter_sublist _).map pyUpper)
    have hnd := hmnd.sublist hsub2
    rw [List.map_map] at hnd
    simpa [Function.comp] using hnd
  · intro a ha1 ha2
    obtain ⟨r, hrmem, hreq⟩ := List.mem_map.mp ha2
    rw [← hreq] at ha1
    exact hc r hrmem ha1

/-- Witness for `merged_unique_and_precedence` on a one-record calendar. -/
theorem merged_unique_and_precedence_witness :
    ((filter_watched_earnings ["AAPL".toList] [aaplRec1]).map
      (fun e => pyUpper e.symbol)).Nodup ∧
    (["AAPL".toList].map pyUpper).Nodup ∧
    ((process_earnings_merged ["AAPL".toList] ("2026-02-05".toList) [aaplRec1]
      (fun _ => []) (fun _ => []) (fun _ => [])).map
        (fun e => pyUpper e.symbol)).Nodup :=
  ⟨by decide, by decide,
    (merged_unique_and_precedence ["AAPL".toList] ("2026-02-05".toList) [aaplRec1]
      (fun _ => []) (fun _ => []) (fun _ => []) (by decide) (by decide)).1⟩

/-- Counterexample to C9 as stated: when the structured source itself returns
two records for the same watched symbol, both survive the filter and the merge,
so the merged output holds two records with the same (subject, ticker)
identity. -/
theorem merged_duplicate_counterexample :
    ¬ ((process_earnings_merged ["AAPL".toList] ("2026-02-05".toList) [aaplRec1, aaplRec2]
        (fun _ => []) (fun _ => []) (fun _ => [])).map
          (fun e => pyUpper e.symbol)).Nodup := by
  decide
